import Mathlib

/-!
Verification development for the deterministic reconciliation engine
(`execute_reconciliation` in `deepagent.py`).

The engine reads two normalized CSV files (columns `std_date`, `std_desc`,
`std_amt`), derives unsigned comparison amounts, runs an exact-match pass,
a fee-adjusted pass, and then reports unmatched residuals.

Modelling choices:
* a normalized row is a `NormRow`: a calendar date (modelled as an integer
  day number, since the code only uses whole-day differences of parsed
  dates), a free-text description, and a signed rational amount
  (amounts are modelled as exact rationals);
* `pd.read_csv` results are passed in as `Except String (List NormRow)`:
  `.error` models a raised read exception, `.ok` the parsed frame
  (row order = file order, index = 0,1,2,...);
* `np.isclose(a, b, atol=0.01)` keeps numpy's default relative tolerance
  `rtol = 1e-5`, i.e. `|a - b| ≤ 0.01 + 1e-5 * |b|`;
* Python's `round(x, 2)` is banker's rounding to two decimals
  (`round_half_even`);
* each emitted report row additionally carries `ledger_ref` / `bank_ref`,
  the dataframe indices (`idx_l` / `idx_b`) of the rows bound into it,
  mirroring the indices the code inserts into `matched_l` / `matched_b`
  at the moment the row is appended.
-/

/-- One row of a normalized input frame: columns `std_date`, `std_desc`,
`std_amt` of the CSVs read by `execute_reconciliation`. -/
structure NormRow where
  std_date : Int
  std_desc : String
  std_amt : Rat
deriving DecidableEq, Repr

/-- `df['abs_amt'] = df['std_amt'].abs()`: the unsigned comparison amount. -/
def abs_amt (r : NormRow) : Rat := |r.std_amt|

/-- `np.isclose(a, b, atol=0.01)` with numpy's default `rtol = 1e-5`:
`|a - b| <= atol + rtol * |b|`. -/
def isclose (a b : Rat) : Bool := |a - b| ≤ 1/100 + |b| / 100000

/-- The exact-pass amount filter: `np.isclose(candidates['abs_amt'], row_l['abs_amt'], atol=0.01)`
applied to a bank row `rb` against ledger row `rl`. -/
def exactAmtOk (rl rb : NormRow) : Bool := isclose (abs_amt rb) (abs_amt rl)

/-- The fee-pass amount filter: `bank.abs_amt < ledger.abs_amt` and
`bank.abs_amt > ledger.abs_amt * 0.96`. -/
def feeAmtOk (rl rb : NormRow) : Bool :=
  (abs_amt rb < abs_amt rl) && (abs_amt rb > abs_amt rl * (96/100))

/-- The 5-day tolerance `abs((d_b - d_l).days) <= 5` on parsed dates. -/
def dateDiffOk (dl db : Int) : Bool := |db - dl| ≤ 5

/-- Python's `round` to an integer: round-half-to-even. -/
def round_half_even (q : Rat) : Int :=
  if q - ⌊q⌋ < 1/2 then ⌊q⌋
  else if q - ⌊q⌋ > 1/2 then ⌊q⌋ + 1
  else if ⌊q⌋ % 2 = 0 then ⌊q⌋ else ⌊q⌋ + 1

/-- Python's `round(x, 2)`: round to two decimal places, half to even. -/
def round2 (q : Rat) : Rat := (round_half_even (q * 100) : Rat) / 100

/-- The `Match_Quality` label of a report row. -/
inductive MatchQuality where
  /-- `"Exact Match"` -/
  | exactMatch
  /-- `"Partial Match (Fee)"` -/
  | feeMatch
  /-- `"Unmatched Bank"` -/
  | unmatchedBank
  /-- `"Unmatched Ledger"` -/
  | unmatchedLedger
deriving DecidableEq, Repr

/-- One dict appended to `matches`: a row of the final report. A field the
dict omits is `none`. `ledger_ref` / `bank_ref` record the dataframe indices
of the participating rows (the indices added to `matched_l` / `matched_b`
when a matched row is appended; the residual loop index otherwise). -/
structure MatchRow where
  quality : MatchQuality
  bank_date : Option Int := none
  bank_desc : Option String := none
  bank_amt : Option Rat := none
  ledger_date : Option Int := none
  ledger_desc : Option String := none
  ledger_amt : Option Rat := none
  difference : Option Rat := none
  ledger_ref : Option Nat := none
  bank_ref : Option Nat := none
deriving DecidableEq, Repr

/-- The dict built at lines 62-67 for an exact match. -/
def mkExact (il : Nat) (rl : NormRow) (ib : Nat) (rb : NormRow) : MatchRow :=
  { quality := .exactMatch
    bank_date := some rb.std_date, bank_desc := some rb.std_desc, bank_amt := some rb.std_amt
    ledger_date := some rl.std_date, ledger_desc := some rl.std_desc, ledger_amt := some rl.std_amt
    difference := some 0
    ledger_ref := some il, bank_ref := some ib }

/-- The dict built at lines 86-91 for a fee match (note: no date fields). -/
def mkFee (il : Nat) (rl : NormRow) (ib : Nat) (rb : NormRow) : MatchRow :=
  { quality := .feeMatch
    bank_desc := some rb.std_desc, ledger_desc := some rl.std_desc
    bank_amt := some rb.std_amt, ledger_amt := some rl.std_amt
    difference := some (round2 (abs_amt rb - abs_amt rl))
    ledger_ref := some il, bank_ref := some ib }

/-- The dict built at line 99 for an unmatched bank row. -/
def mkUnmatchedBank (ib : Nat) (rb : NormRow) : MatchRow :=
  { quality := .unmatchedBank
    bank_date := some rb.std_date, bank_desc := some rb.std_desc, bank_amt := some rb.std_amt
    bank_ref := some ib }

/-- The dict built at line 103 for an unmatched ledger row. -/
def mkUnmatchedLedger (il : Nat) (rl : NormRow) : MatchRow :=
  { quality := .unmatchedLedger
    ledger_date := some rl.std_date, ledger_desc := some rl.std_desc, ledger_amt := some rl.std_amt
    ledger_ref := some il }

/-- Mutable engine state: the `matches` list and the `matched_l` /
`matched_b` index sets (modelled as duplicate-free lists in insertion
order; the code only tests membership). -/
structure EngineState where
  matchList : List MatchRow
  matched_l : List Nat
  matched_b : List Nat
deriving DecidableEq, Repr

/-- `candidates = df_b[~df_b.index.isin(matched_b)]` followed by the amount
filter: the still-unclaimed bank rows passing `amtOk`, with their indices,
in frame order. -/
def unclaimedCands (df_b : List NormRow) (matched_b : List Nat)
    (amtOk : NormRow → Bool) : List (Nat × NormRow) :=
  df_b.enum.filter fun p => !(matched_b.contains p.1) && amtOk p.2

/-- The inner `for idx_b, row_b in ... .iterrows()` loop with its
date-tolerance check and `break`: the first candidate within the
5-day window, if any. -/
def findByDate (rl : NormRow) (cands : List (Nat × NormRow)) :
    Option (Nat × NormRow) :=
  cands.find? fun p => dateDiffOk rl.std_date p.2.std_date

/-- One iteration of the STRATEGY 1 (exact match) loop body for ledger row
`p = (idx_l, row_l)`. -/
def exactStep (df_b : List NormRow) (st : EngineState) (p : Nat × NormRow) :
    EngineState :=
  if st.matched_l.contains p.1 then st
  else
    match findByDate p.2 (unclaimedCands df_b st.matched_b (exactAmtOk p.2)) with
    | none => st
    | some (ib, rb) =>
        { matchList := st.matchList ++ [mkExact p.1 p.2 ib rb]
          matched_l := st.matched_l ++ [p.1]
          matched_b := st.matched_b ++ [ib] }

/-- One iteration of the STRATEGY 2 (fee match) loop body for ledger row
`p = (idx_l, row_l)`; only rows with `abs_amt > 0` are considered. -/
def feeStep (df_b : List NormRow) (st : EngineState) (p : Nat × NormRow) :
    EngineState :=
  if st.matched_l.contains p.1 then st
  else if abs_amt p.2 > 0 then
    match findByDate p.2 (unclaimedCands df_b st.matched_b (feeAmtOk p.2)) with
    | none => st
    | some (ib, rb) =>
        { matchList := st.matchList ++ [mkFee p.1 p.2 ib rb]
          matched_l := st.matched_l ++ [p.1]
          matched_b := st.matched_b ++ [ib] }
  else st

/-- Both matching passes: the exact-match pass over all ledger rows,
then the fee-match pass over all ledger rows, starting from empty
`matches` / `matched_l` / `matched_b`. -/
def runMatching (df_l df_b : List NormRow) : EngineState :=
  let st1 := df_l.enum.foldl (exactStep df_b) ⟨[], [], []⟩
  df_l.enum.foldl (feeStep df_b) st1

/-- The full match list of a validated run: pass outcomes, then the
REPORT UNMATCHED section (unmatched bank rows in frame order, then
unmatched ledger rows in frame order). -/
def reconcileRows (df_l df_b : List NormRow) : List MatchRow :=
  let st := runMatching df_l df_b
  st.matchList
    ++ (df_b.enum.filter fun p => !(st.matched_b.contains p.1)).map
        (fun p => mkUnmatchedBank p.1 p.2)
    ++ (df_l.enum.filter fun p => !(st.matched_l.contains p.1)).map
        (fun p => mkUnmatchedLedger p.1 p.2)

/-- `execute_reconciliation`: the reads are passed in as `Except` values
(`.error e` models a read raising exception `e`). A failed read returns
the `"ERROR: Could not read files."` message; an empty frame returns the
`"ERROR: ... empty."` message; otherwise the ordered match list is
produced. -/
def execute_reconciliation (readL readB : Except String (List NormRow)) :
    Except String (List MatchRow) :=
  match readL with
  | .error e => .error ("ERROR: Could not read files. " ++ e)
  | .ok df_l =>
    match readB with
    | .error e => .error ("ERROR: Could not read files. " ++ e)
    | .ok df_b =>
      if df_l.isEmpty || df_b.isEmpty then
        .error "ERROR: One of the normalized files is empty."
      else
        .ok (reconcileRows df_l df_b)

set_option maxRecDepth 2000

/-! ### Generic list lemmas -/

/-- Filtering before `find?` is the same as one `find?` with the
conjunction of both predicates. -/
theorem find?_filter_eq {α : Type} (l : List α) (q p : α → Bool) :
    (l.filter q).find? p = l.find? fun a => q a && p a := by
  induction l with
  | nil => rfl
  | cons a as ih =>
    by_cases hq : q a = true
    · by_cases hp : p a = true
      · simp [List.filter_cons, hq, hp]
      · simp only [List.filter_cons, hq, if_pos]
        rw [List.find?_cons_of_neg _ (by simp [hp]), ih,
          List.find?_cons_of_neg _ (by simp [hq, hp])]
    · simp only [Bool.not_eq_true] at hq
      rw [List.filter_cons, if_neg (by simp [hq]), ih,
        List.find?_cons_of_neg _ (by simp [hq])]

/-- What `find?` over an enumerated list returns: an in-bounds entry
satisfying the predicate, such that every earlier unfiltered entry fails
the predicate. -/
theorem find?_enumFrom_spec {α : Type} (p : Nat × α → Bool) :
    ∀ (l : List α) (n ib : Nat) (rb : α),
      (List.enumFrom n l).find? p = some (ib, rb) →
      n ≤ ib ∧ l[ib - n]? = some rb ∧ p (ib, rb) = true ∧
      ∀ k, n ≤ k → k < ib → ∀ rk, l[k - n]? = some rk → p (k, rk) = false := by
  intro l
  induction l with
  | nil => intro n ib rb h; simp [List.enumFrom] at h
  | cons a as ih =>
    intro n ib rb h
    simp only [List.enumFrom] at h
    by_cases hpa : p (n, a) = true
    · rw [List.find?_cons_of_pos _ hpa] at h
      have hib : n = ib ∧ a = rb := by
        refine ⟨congrArg Prod.fst (Option.some.inj h),
          congrArg Prod.snd (Option.some.inj h)⟩
      obtain ⟨rfl, rfl⟩ := hib
      refine ⟨le_refl n, by simp, hpa, ?_⟩
      intro k hk1 hk2
      omega
    · rw [List.find?_cons_of_neg _ (by simp [hpa])] at h
      obtain ⟨h1, h2, h3, h4⟩ := ih (n + 1) ib rb h
      refine ⟨by omega, ?_, h3, ?_⟩
      · have he : ib - n = (ib - (n + 1)) + 1 := by omega
        rw [he]
        simpa using h2
      · intro k hk1 hk2 rk hrk
        rcases Nat.eq_or_lt_of_le hk1 with hkn | hkn
        · have he : k - n = 0 := by omega
          rw [he] at hrk
          simp only [List.getElem?_cons_zero, Option.some.injEq] at hrk
          subst hrk
          subst hkn
          exact Bool.eq_false_iff.mpr hpa
        · have hk1' : n + 1 ≤ k := by omega
          have he : k - n = (k - (n + 1)) + 1 := by omega
          rw [he] at hrk
          simp only [List.getElem?_cons_succ] at hrk
          exact h4 k hk1' hk2 rk hrk

/-- First components in `enumFrom n l` are at least `n`. -/
theorem fst_le_of_mem_enumFrom {α : Type} :
    ∀ (l : List α) (n : Nat), ∀ pr ∈ List.enumFrom n l, n ≤ pr.1 := by
  intro l
  induction l with
  | nil => intro n pr h; simp [List.enumFrom] at h
  | cons a as ih =>
    intro n pr h
    simp only [List.enumFrom, List.mem_cons] at h
    rcases h with rfl | h
    · exact le_refl n
    · have := ih (n + 1) pr h
      omega

/-- The indices in an enumerated list are strictly increasing. -/
theorem enumFrom_pairwise_fst_lt {α : Type} :
    ∀ (l : List α) (n : Nat),
      (List.enumFrom n l).Pairwise fun p q => p.1 < q.1 := by
  intro l
  induction l with
  | nil => intro n; simp [List.enumFrom]
  | cons a as ih =>
    intro n
    simp only [List.enumFrom]
    refine List.Pairwise.cons ?_ (ih (n + 1))
    intro pr hpr
    have := fst_le_of_mem_enumFrom as (n + 1) pr hpr
    omega

/-- Counting rows whose optional reference is `some i` is counting `i`
among the collected references. -/
theorem countP_ref_eq_count {α : Type} [DecidableEq α] {β : Type}
    (f : β → Option α) (i : α) :
    ∀ m : List β, (m.countP fun ro => f ro == some i) = (m.filterMap f).count i := by
  intro m
  induction m with
  | nil => rfl
  | cons a as ih =>
    cases hfa : f a with
    | none => simp [List.countP_cons, List.filterMap_cons, hfa, ih]
    | some j =>
      by_cases hj : j = i
      · subst hj
        simp [List.countP_cons, List.filterMap_cons, hfa, ih, List.count_cons]
      · simp [List.countP_cons, List.filterMap_cons, hfa, ih, List.count_cons, hj]

/-- How many entries with first component `i` survive filtering an
enumeration by a predicate on the index: one when `i` is an in-range
index passing the filter, none otherwise. -/
theorem countP_fst_filter_enumFrom {α : Type} (c : Nat → Bool) (i : Nat) :
    ∀ (l : List α) (n : Nat),
      (((List.enumFrom n l).filter fun p => c p.1).countP fun p => p.1 == i) =
      if n ≤ i ∧ i < n + l.length ∧ c i = true then 1 else 0 := by
  intro l
  induction l with
  | nil =>
    intro n
    simp only [List.enumFrom, List.filter_nil, List.countP_nil, List.length_nil,
      Nat.add_zero]
    rw [if_neg fun h => absurd (lt_of_le_of_lt h.1 h.2.1) (lt_irrefl n)]
  | cons a as ih =>
    intro n
    simp only [List.enumFrom, List.filter_cons, List.length_cons]
    by_cases hcn : c n = true
    · rw [if_pos hcn, List.countP_cons, ih (n + 1)]
      by_cases hni : n = i
      · subst hni
        rw [if_pos (by simp : ((n == n) = true)),
          if_neg (fun h => absurd h.1 (by omega)),
          if_pos ⟨le_refl n, by omega, hcn⟩]
      · rw [if_neg (by simp [hni] : ¬((n == i) = true))]
        by_cases hci : c i = true
        · simp only [hci, eq_self_iff_true, and_true]
          split_ifs with h1 h2 h2 <;> omega
        · rw [if_neg fun h => hci h.2.2, if_neg fun h => hci h.2.2]
    · rw [if_neg (by simp [hcn] : ¬(c n = true)), ih (n + 1)]
      by_cases hci : c i = true
      · by_cases hni : n = i
        · subst hni
          rw [if_neg (fun h => absurd h.1 (by omega)), if_neg fun h => hcn h.2.2]
        · simp only [hci, eq_self_iff_true, and_true]
          split_ifs with h1 h2 h2 <;> omega
      · rw [if_neg fun h => hci h.2.2, if_neg fun h => hci h.2.2]

/-! ### What the candidate finder returns -/

/-- Unpacking a successful candidate search: the returned bank row is
unclaimed, in bounds, passes the amount filter and the date window, and
every earlier unclaimed bank row fails the combined candidate test. -/
theorem findByDate_spec (df_b : List NormRow) (mb : List Nat)
    (a : NormRow → Bool) (rl : NormRow) (ib : Nat) (rb : NormRow)
    (h : findByDate rl (unclaimedCands df_b mb a) = some (ib, rb)) :
    mb.contains ib = false ∧ df_b[ib]? = some rb ∧ a rb = true ∧
    dateDiffOk rl.std_date rb.std_date = true ∧
    ∀ k, k < ib → ∀ rk, df_b[k]? = some rk → mb.contains k = false →
      (a rk && dateDiffOk rl.std_date rk.std_date) = false := by
  rw [findByDate, unclaimedCands, find?_filter_eq] at h
  have h' := find?_enumFrom_spec
    (fun p => (!(mb.contains p.1) && a p.2) && dateDiffOk rl.std_date p.2.std_date)
    df_b 0 ib rb (by simpa [List.enum] using h)
  obtain ⟨-, h2, h3, h4⟩ := h'
  simp only [Nat.sub_zero] at h2 h4
  simp only [Bool.and_eq_true, Bool.not_eq_true'] at h3
  refine ⟨h3.1.1, h2, h3.1.2, h3.2, ?_⟩
  intro k hk rk hrk hmbk
  have hfalse := h4 k (Nat.zero_le k) hk rk hrk
  rw [hmbk] at hfalse
  simp only [Bool.not_false, Bool.true_and] at hfalse
  exact hfalse

/-- Case analysis of one exact-pass iteration: either the state is
unchanged, or the ledger row was unclaimed, a first candidate was found,
and exactly one `mkExact` row is appended while both rows are claimed. -/
theorem exactStep_cases (df_b : List NormRow) (st : EngineState)
    (i : Nat) (r : NormRow) :
    exactStep df_b st (i, r) = st ∨
    (st.matched_l.contains i = false ∧ ∃ ib rb,
      st.matched_b.contains ib = false ∧ df_b[ib]? = some rb ∧
      exactAmtOk r rb = true ∧ dateDiffOk r.std_date rb.std_date = true ∧
      exactStep df_b st (i, r) =
        ⟨st.matchList ++ [mkExact i r ib rb], st.matched_l ++ [i],
         st.matched_b ++ [ib]⟩) := by
  by_cases hl : st.matched_l.contains i = true
  · left
    have hm : i ∈ st.matched_l := by simpa using hl
    simp [exactStep, hm]
  · have hl' : st.matched_l.contains i = false := Bool.eq_false_iff.mpr hl
    have hm : i ∉ st.matched_l := by simpa using hl'
    cases hfind : findByDate r (unclaimedCands df_b st.matched_b (exactAmtOk r)) with
    | none => left; simp [exactStep, hm, hfind]
    | some pr =>
      obtain ⟨ib, rb⟩ := pr
      obtain ⟨hc, hg, ha, hd, -⟩ := findByDate_spec df_b st.matched_b _ r ib rb hfind
      right
      exact ⟨hl', ib, rb, hc, hg, ha, hd, by simp [exactStep, hm, hfind]⟩

/-- Case analysis of one fee-pass iteration, as for `exactStep_cases`;
the positive case additionally records that the fee window held. -/
theorem feeStep_cases (df_b : List NormRow) (st : EngineState)
    (i : Nat) (r : NormRow) :
    feeStep df_b st (i, r) = st ∨
    (st.matched_l.contains i = false ∧ 0 < abs_amt r ∧ ∃ ib rb,
      st.matched_b.contains ib = false ∧ df_b[ib]? = some rb ∧
      feeAmtOk r rb = true ∧ dateDiffOk r.std_date rb.std_date = true ∧
      feeStep df_b st (i, r) =
        ⟨st.matchList ++ [mkFee i r ib rb], st.matched_l ++ [i],
         st.matched_b ++ [ib]⟩) := by
  by_cases hl : st.matched_l.contains i = true
  · left
    have hm : i ∈ st.matched_l := by simpa using hl
    simp [feeStep, hm]
  · have hl' : st.matched_l.contains i = false := Bool.eq_false_iff.mpr hl
    have hm : i ∉ st.matched_l := by simpa using hl'
    by_cases hpos : 0 < abs_amt r
    · cases hfind : findByDate r (unclaimedCands df_b st.matched_b (feeAmtOk r)) with
      | none => left; simp [feeStep, hm, hfind, hpos]
      | some pr =>
        obtain ⟨ib, rb⟩ := pr
        obtain ⟨hc, hg, ha, hd, -⟩ := findByDate_spec df_b st.matched_b _ r ib rb hfind
        right
        exact ⟨hl', hpos, ib, rb, hc, hg, ha, hd, by simp [feeStep, hm, hfind, hpos]⟩
    · left
      simp [feeStep, hm, hpos]

/-! ### The pass invariant -/

/-- The shape every fee-match report row has: amounts, descriptions and
references for both sides are present, the bank unsigned amount is
strictly below the ledger unsigned amount, the difference is the rounded
amount gap, and (unlike exact matches) no date field is present. -/
def feeShape (ro : MatchRow) : Prop :=
  ∃ b l, ro.bank_amt = some b ∧ ro.ledger_amt = some l ∧ |b| < |l| ∧
    ro.difference = some (round2 (|b| - |l|)) ∧
    ro.bank_date = none ∧ ro.ledger_date = none ∧
    (∃ s, ro.bank_desc = some s) ∧ (∃ s, ro.ledger_desc = some s) ∧
    (∃ jb, ro.bank_ref = some jb) ∧ (∃ il, ro.ledger_ref = some il)

/-- Invariant maintained by both passes: the claimed-index lists collect
exactly the references of the emitted rows, hold no duplicates, and every
emitted row is an exact-match row (difference 0) or a fee row of
`feeShape`. -/
structure PassInv (st : EngineState) : Prop where
  refs_l : st.matchList.filterMap MatchRow.ledger_ref = st.matched_l
  refs_b : st.matchList.filterMap MatchRow.bank_ref = st.matched_b
  nodup_l : st.matched_l.Nodup
  nodup_b : st.matched_b.Nodup
  shape : ∀ ro ∈ st.matchList,
    (ro.quality = MatchQuality.exactMatch ∧ ro.difference = some 0) ∨
    (ro.quality = MatchQuality.feeMatch ∧ feeShape ro)

/-- Appending one match row that claims fresh indices preserves the
pass invariant. -/
theorem passInv_append (st : EngineState) (hinv : PassInv st) (i ib : Nat)
    (o : MatchRow)
    (hli : st.matched_l.contains i = false)
    (hbi : st.matched_b.contains ib = false)
    (href_l : o.ledger_ref = some i) (href_b : o.bank_ref = some ib)
    (hshape : (o.quality = MatchQuality.exactMatch ∧ o.difference = some 0) ∨
      (o.quality = MatchQuality.feeMatch ∧ feeShape o)) :
    PassInv ⟨st.matchList ++ [o], st.matched_l ++ [i], st.matched_b ++ [ib]⟩ := by
  obtain ⟨h1, h2, h3, h4, h5⟩ := hinv
  have hmem_l : i ∉ st.matched_l := by simpa using hli
  have hmem_b : ib ∉ st.matched_b := by simpa using hbi
  refine ⟨?_, ?_, ?_, ?_, ?_⟩
  · rw [List.filterMap_append, h1]
    simp [href_l]
  · rw [List.filterMap_append, h2]
    simp [href_b]
  · simp [List.nodup_append, h3, hmem_l]
  · simp [List.nodup_append, h4, hmem_b]
  · intro ro hro
    rcases List.mem_append.mp hro with hro | hro
    · exact h5 ro hro
    · rcases List.mem_singleton.mp hro with rfl
      exact hshape

/-- One exact-pass iteration preserves the pass invariant. -/
theorem exactStep_preserves (df_b : List NormRow) (st : EngineState)
    (p : Nat × NormRow) (hinv : PassInv st) : PassInv (exactStep df_b st p) := by
  obtain ⟨i, r⟩ := p
  rcases exactStep_cases df_b st i r with heq | ⟨hl, ib, rb, hc, hg, ha, hd, heq⟩
  · rw [heq]; exact hinv
  · rw [heq]
    exact passInv_append st hinv i ib (mkExact i r ib rb) hl hc rfl rfl
      (Or.inl ⟨rfl, rfl⟩)

/-- One fee-pass iteration preserves the pass invariant. -/
theorem feeStep_preserves (df_b : List NormRow) (st : EngineState)
    (p : Nat × NormRow) (hinv : PassInv st) : PassInv (feeStep df_b st p) := by
  obtain ⟨i, r⟩ := p
  rcases feeStep_cases df_b st i r with heq | ⟨hl, hpos, ib, rb, hc, hg, ha, hd, heq⟩
  · rw [heq]; exact hinv
  · rw [heq]
    refine passInv_append st hinv i ib (mkFee i r ib rb) hl hc rfl rfl
      (Or.inr ⟨rfl, ?_⟩)
    have hlt : abs_amt rb < abs_amt r := by
      have := ha
      simp only [feeAmtOk, Bool.and_eq_true, decide_eq_true_eq] at this
      exact this.1
    exact ⟨rb.std_amt, r.std_amt, rfl, rfl, hlt, rfl, rfl, rfl,
      ⟨rb.std_desc, rfl⟩, ⟨r.std_desc, rfl⟩, ⟨ib, rfl⟩, ⟨i, rfl⟩⟩

/-- Folding an invariant-preserving step keeps the invariant. -/
theorem foldl_preserves_passInv
    (step : EngineState → Nat × NormRow → EngineState)
    (hstep : ∀ st p, PassInv st → PassInv (step st p)) :
    ∀ (ps : List (Nat × NormRow)) (st : EngineState), PassInv st →
      PassInv (ps.foldl step st) := by
  intro ps
  induction ps with
  | nil => intro st h; exact h
  | cons p ps ih =>
    intro st h
    exact ih (step st p) (hstep st p h)

/-- The state after both passes satisfies the pass invariant. -/
theorem runMatching_passInv (df_l df_b : List NormRow) :
    PassInv (runMatching df_l df_b) := by
  rw [runMatching]
  refine foldl_preserves_passInv _ (feeStep_preserves df_b) _ _ ?_
  refine foldl_preserves_passInv _ (exactStep_preserves df_b) _ _ ?_
  exact ⟨rfl, rfl, List.nodup_nil, List.nodup_nil, fun ro hro => absurd hro
    (List.not_mem_nil ro)⟩

/-! ### Rounding facts -/

/-- Rounding a nonpositive rational to the nearest integer (half to even)
never yields a positive integer. -/
theorem round_half_even_nonpos (q : Rat) (h : q ≤ 0) : round_half_even q ≤ 0 := by
  have hf : (⌊q⌋ : Int) ≤ 0 := Int.floor_nonpos h
  unfold round_half_even
  split_ifs with h1 h2 h3
  · exact hf
  · by_contra hc
    push_neg at hc
    have h0 : (⌊q⌋ : Int) = 0 := le_antisymm hf (by omega)
    rw [h0] at h2
    simp only [Int.cast_zero, sub_zero] at h2
    linarith
  · exact hf
  · by_contra hc
    push_neg at hc
    have h0 : (⌊q⌋ : Int) = 0 := le_antisymm hf (by omega)
    rw [h0] at h1
    push_neg at h1
    simp only [Int.cast_zero, sub_zero] at h1
    linarith

/-- Rounding a nonpositive rational to two decimals stays nonpositive. -/
theorem round2_nonpos (q : Rat) (h : q ≤ 0) : round2 q ≤ 0 := by
  have h100 : q * 100 ≤ 0 := mul_nonpos_of_nonpos_of_nonneg h (by norm_num)
  have hk : round_half_even (q * 100) ≤ 0 := round_half_even_nonpos _ h100
  have hkq : ((round_half_even (q * 100) : Int) : Rat) ≤ 0 := by exact_mod_cast hk
  rw [round2]
  linarith

/-! ### Extracting a successful run -/

/-- A successful run is exactly a run on two nonempty parsed frames, and
its outcome list is `reconcileRows` of those frames. -/
theorem execute_ok_iff (readL readB : Except String (List NormRow))
    (res : List MatchRow) :
    execute_reconciliation readL readB = .ok res ↔
    ∃ df_l df_b, readL = .ok df_l ∧ readB = .ok df_b ∧
      df_l ≠ [] ∧ df_b ≠ [] ∧ res = reconcileRows df_l df_b := by
  constructor
  · intro h
    cases readL with
    | error e => simp [execute_reconciliation] at h
    | ok df_l =>
      cases readB with
      | error e => simp [execute_reconciliation] at h
      | ok df_b =>
        rw [execute_reconciliation] at h
        by_cases hemp : df_l.isEmpty || df_b.isEmpty
        · rw [if_pos hemp] at h
          exact absurd h (by simp)
        · rw [if_neg hemp] at h
          simp only [Bool.or_eq_true, List.isEmpty_iff, not_or] at hemp
          exact ⟨df_l, df_b, rfl, rfl, hemp.1, hemp.2, (Except.ok.inj h).symm⟩
  · rintro ⟨df_l, df_b, rfl, rfl, hl, hb, rfl⟩
    rw [execute_reconciliation]
    rw [if_neg (by simp [List.isEmpty_iff, hl, hb])]

/-! ### Counting references in the residual sections -/

/-- Unmatched-bank rows carry no ledger reference. -/
theorem countP_ledger_in_ub (lst : List (Nat × NormRow)) (i : Nat) :
    ((lst.map fun p => mkUnmatchedBank p.1 p.2).countP
      fun ro => ro.ledger_ref == some i) = 0 := by
  rw [List.countP_map]
  exact List.countP_eq_zero.mpr fun pr hpr => by simp [mkUnmatchedBank, Function.comp]

/-- Unmatched-ledger rows carry no bank reference. -/
theorem countP_bank_in_ul (lst : List (Nat × NormRow)) (j : Nat) :
    ((lst.map fun p => mkUnmatchedLedger p.1 p.2).countP
      fun ro => ro.bank_ref == some j) = 0 := by
  rw [List.countP_map]
  exact List.countP_eq_zero.mpr fun pr hpr => by simp [mkUnmatchedLedger, Function.comp]

/-- The unmatched-bank section references bank index `j` exactly once when
`j` is an in-range unclaimed index, and never otherwise. -/
theorem countP_bank_in_ub (df_b : List NormRow) (mb : List Nat) (j : Nat) :
    (((df_b.enum.filter fun p => !(mb.contains p.1)).map
        fun p => mkUnmatchedBank p.1 p.2).countP
      fun ro => ro.bank_ref == some j) =
    if j < df_b.length ∧ mb.contains j = false then 1 else 0 := by
  rw [List.countP_map]
  rw [show ((fun ro => ro.bank_ref == some j) ∘ fun p : Nat × NormRow =>
      mkUnmatchedBank p.1 p.2) = (fun p : Nat × NormRow => p.1 == j) from rfl]
  rw [show df_b.enum = List.enumFrom 0 df_b from rfl]
  rw [countP_fst_filter_enumFrom (fun k => !(mb.contains k)) j df_b 0]
  cases hcb : mb.contains j with
  | false =>
    by_cases hj : j < df_b.length
    · rw [if_pos ⟨Nat.zero_le j, by omega, by simp [hcb]⟩, if_pos ⟨hj, rfl⟩]
    · rw [if_neg fun hh => absurd hh.2.1 (by omega),
        if_neg fun hh => absurd hh.1 hj]
  | true =>
    rw [if_neg fun hh => Bool.noConfusion hh.2.2,
      if_neg fun hh => Bool.noConfusion hh.2]

/-- The unmatched-ledger section references ledger index `i` exactly once
when `i` is an in-range unclaimed index, and never otherwise. -/
theorem countP_ledger_in_ul (df_l : List NormRow) (ml : List Nat) (i : Nat) :
    (((df_l.enum.filter fun p => !(ml.contains p.1)).map
        fun p => mkUnmatchedLedger p.1 p.2).countP
      fun ro => ro.ledger_ref == some i) =
    if i < df_l.length ∧ ml.contains i = false then 1 else 0 := by
  rw [List.countP_map]
  rw [show ((fun ro => ro.ledger_ref == some i) ∘ fun p : Nat × NormRow =>
      mkUnmatchedLedger p.1 p.2) = (fun p : Nat × NormRow => p.1 == i) from rfl]
  rw [show df_l.enum = List.enumFrom 0 df_l from rfl]
  rw [countP_fst_filter_enumFrom (fun k => !(ml.contains k)) i df_l 0]
  cases hcb : ml.contains i with
  | false =>
    by_cases hi : i < df_l.length
    · rw [if_pos ⟨Nat.zero_le i, by omega, by simp [hcb]⟩, if_pos ⟨hi, rfl⟩]
    · rw [if_neg fun hh => absurd hh.2.1 (by omega),
        if_neg fun hh => absurd hh.1 hi]
  | true =>
    rw [if_neg fun hh => Bool.noConfusion hh.2.2,
      if_neg fun hh => Bool.noConfusion hh.2]

/-! ### Claim theorems -/

/-- C1. Every input record participates in exactly one emitted outcome of
a successful run: each ledger index below the ledger length is referenced
by exactly one report row, and likewise each bank index — so the outcome
list partitions the two inputs and no record is claimed twice. -/
theorem reconcile_partitions_inputs (df_l df_b : List NormRow)
    (res : List MatchRow)
    (h : execute_reconciliation (.ok df_l) (.ok df_b) = .ok res) :
    (∀ i, i < df_l.length → (res.countP fun ro => ro.ledger_ref == some i) = 1) ∧
    (∀ j, j < df_b.length → (res.countP fun ro => ro.bank_ref == some j) = 1) := by
  have hres : res = reconcileRows df_l df_b := by
    obtain ⟨df_l', df_b', hL, hB, -, -, hres⟩ := (execute_ok_iff _ _ _).mp h
    cases Except.ok.inj hL
    cases Except.ok.inj hB
    exact hres
  subst hres
  obtain ⟨hrefs_l, hrefs_b, hnodup_l, hnodup_b, -⟩ := runMatching_passInv df_l df_b
  constructor
  · intro i hi
    rw [reconcileRows]
    simp only [List.countP_append]
    rw [countP_ref_eq_count MatchRow.ledger_ref i, hrefs_l,
      countP_ledger_in_ub, countP_ledger_in_ul]
    by_cases him : i ∈ (runMatching df_l df_b).matched_l
    · rw [List.count_eq_one_of_mem hnodup_l him,
        if_neg fun hh => by
          have := hh.2
          rw [show (runMatching df_l df_b).matched_l.contains i = true by
            simpa using him] at this
          exact Bool.noConfusion this]
    · rw [List.count_eq_zero.mpr him,
        if_pos ⟨hi, by simpa using him⟩]
  · intro j hj
    rw [reconcileRows]
    simp only [List.countP_append]
    rw [countP_ref_eq_count MatchRow.bank_ref j, hrefs_b,
      countP_bank_in_ub, countP_bank_in_ul]
    by_cases him : j ∈ (runMatching df_l df_b).matched_b
    · rw [List.count_eq_one_of_mem hnodup_b him,
        if_neg fun hh => by
          have := hh.2
          rw [show (runMatching df_l df_b).matched_b.contains j = true by
            simpa using him] at this
          exact Bool.noConfusion this]
    · rw [List.count_eq_zero.mpr him,
        if_pos ⟨hj, by simpa using him⟩]

/-- C5. A failed read returns a descriptive read error; an empty parsed
frame returns the empty-input error; and outcomes exist only for runs
whose two frames both parsed nonempty, in which case the full report is
produced — a failed run never returns outcomes. -/
theorem validation_failures_abort :
    (∀ e readB, execute_reconciliation (.error e) readB =
      .error ("ERROR: Could not read files. " ++ e)) ∧
    (∀ df_l e, execute_reconciliation (.ok df_l) (.error e) =
      .error ("ERROR: Could not read files. " ++ e)) ∧
    (∀ df_l df_b : List NormRow, df_l = [] ∨ df_b = [] →
      execute_reconciliation (.ok df_l) (.ok df_b) =
        .error "ERROR: One of the normalized files is empty.") ∧
    (∀ readL readB res, execute_reconciliation readL readB = .ok res →
      ∃ df_l df_b, readL = .ok df_l ∧ readB = .ok df_b ∧
        df_l ≠ [] ∧ df_b ≠ [] ∧ res = reconcileRows df_l df_b) := by
  refine ⟨fun e readB => rfl, fun df_l e => rfl, ?_, ?_⟩
  · intro df_l df_b hemp
    rcases hemp with rfl | rfl
    · rw [execute_reconciliation, if_pos (by simp)]
    · rw [execute_reconciliation, if_pos (by simp)]
  · intro readL readB res h
    exact (execute_ok_iff _ _ _).mp h

/-- Witness for C5 at concrete inputs. -/
theorem validation_failures_abort_witness :
    execute_reconciliation (.ok []) (.ok [⟨0, "B", 1⟩]) =
      .error "ERROR: One of the normalized files is empty." :=
  validation_failures_abort.2.2.1 [] [⟨0, "B", 1⟩] (Or.inl rfl)

/-- C8. The engine is a pure function of its two input collections: two
runs on the same inputs return the same outcome list, order and content
included. -/
theorem engine_deterministic (readL readB : Except String (List NormRow))
    (r1 r2 : Except String (List MatchRow))
    (h1 : execute_reconciliation readL readB = r1)
    (h2 : execute_reconciliation readL readB = r2) : r1 = r2 :=
  h1.symm.trans h2

/-- Witness for C8 at concrete inputs. -/
theorem engine_deterministic_witness :
    execute_reconciliation (.ok [⟨0, "L", 500⟩]) (.ok [⟨2, "B", -500⟩]) =
      execute_reconciliation (.ok [⟨0, "L", 500⟩]) (.ok [⟨2, "B", -500⟩]) :=
  engine_deterministic (.ok [⟨0, "L", 500⟩]) (.ok [⟨2, "B", -500⟩]) _ _ rfl rfl

/-- C2 (amended). The exact-pass candidate test is `np.isclose` with
numpy's default relative tolerance: a pair is a candidate iff
`|bank − ledger| ≤ 0.01 + ledger/100000` and the dates are within 5 days.
At exactly 0.01 amount difference and 5 days apart it matches; 6 days
apart it never matches; at 0.011 amount difference it fails only when the
ledger unsigned amount is below 100. -/
theorem exact_candidate_tolerance :
    (∀ rl rb : NormRow,
      (exactAmtOk rl rb && dateDiffOk rl.std_date rb.std_date) = true ↔
      (|abs_amt rb - abs_amt rl| ≤ 1/100 + abs_amt rl / 100000 ∧
        |rb.std_date - rl.std_date| ≤ 5)) ∧
    (∀ rl rb : NormRow, |abs_amt rb - abs_amt rl| = 1/100 →
      |rb.std_date - rl.std_date| = 5 →
      (exactAmtOk rl rb && dateDiffOk rl.std_date rb.std_date) = true) ∧
    (∀ rl rb : NormRow, (6 : Int) ≤ |rb.std_date - rl.std_date| →
      (exactAmtOk rl rb && dateDiffOk rl.std_date rb.std_date) = false) ∧
    (∀ rl rb : NormRow, |abs_amt rb - abs_amt rl| = 11/1000 →
      abs_amt rl < 100 → exactAmtOk rl rb = false) := by
  have habs : ∀ r : NormRow, |abs_amt r| = abs_amt r := fun r => abs_abs r.std_amt
  refine ⟨?_, ?_, ?_, ?_⟩
  · intro rl rb
    simp [exactAmtOk, isclose, dateDiffOk, Bool.and_eq_true, decide_eq_true_eq,
      habs rl]
  · intro rl rb hamt hdate
    have h0 : (0:ℚ) ≤ abs_amt rl / 100000 := by
      have := abs_nonneg rl.std_amt
      rw [abs_amt]
      positivity
    simp only [exactAmtOk, isclose, dateDiffOk, Bool.and_eq_true,
      decide_eq_true_eq, habs rl, hamt, hdate]
    constructor
    · linarith
    · omega
  · intro rl rb hdate
    have : ¬ (|rb.std_date - rl.std_date| ≤ 5) := by omega
    simp [dateDiffOk, this]
  · intro rl rb hamt hsmall
    simp only [exactAmtOk, isclose, habs rl, hamt, decide_eq_false_iff_not]
    intro hle
    have : (100:ℚ) ≤ abs_amt rl := by linarith
    linarith

/-- Counterexample to C2 as stated: with ledger unsigned amount 1000 the
pair at amount difference 0.015 (`> 0.01`) and equal dates still
exact-matches, because `np.isclose` adds a relative tolerance of
`1e-5 * 1000 = 0.01` on top of `atol = 0.01`. -/
theorem exact_tolerance_strict_cex :
    execute_reconciliation (.ok [⟨0, "L", 1000⟩]) (.ok [⟨0, "B", 200003/200⟩]) =
      .ok [mkExact 0 ⟨0, "L", 1000⟩ 0 ⟨0, "B", 200003/200⟩] ∧
    ¬ (|abs_amt ⟨0, "B", 200003/200⟩ - abs_amt ⟨0, "L", 1000⟩| ≤ 1/100) := by
  constructor
  · norm_num [execute_reconciliation, reconcileRows, runMatching, exactStep, feeStep,
      findByDate, unclaimedCands, exactAmtOk, feeAmtOk, isclose, dateDiffOk, abs_amt,
      List.enum, List.enumFrom, abs_of_nonneg, abs_of_nonpos]
  · norm_num [abs_amt, abs_of_nonneg]

/-- Witness for C2 (amended): exact 0.01 difference at 5 days matches;
0.011 difference fails for a ledger amount of 50. -/
theorem exact_candidate_tolerance_witness :
    (exactAmtOk ⟨0, "L", 100⟩ ⟨5, "B", 10001/100⟩ && dateDiffOk 0 5) = true ∧
    exactAmtOk ⟨0, "L", 50⟩ ⟨0, "B", 50011/1000⟩ = false :=
  ⟨exact_candidate_tolerance.2.1 ⟨0, "L", 100⟩ ⟨5, "B", 10001/100⟩
      (by norm_num [abs_amt, abs_of_nonneg]) (by norm_num),
    exact_candidate_tolerance.2.2.2 ⟨0, "L", 50⟩ ⟨0, "B", 50011/1000⟩
      (by norm_num [abs_amt, abs_of_nonneg]) (by norm_num [abs_amt, abs_of_nonneg])⟩

/-- C3. For a ledger row with positive unsigned amount and a bank row in
the 5-day window: being listed among the pass candidates is exactly the
fee window test; the window is `0.96 * ledger < bank < ledger` with both
inequalities strict, so a bank amount at exactly 96% of the ledger amount
is rejected while 96.01% is accepted. -/
theorem fee_window_boundaries (rl rb : NormRow)
    (hpos : 0 < abs_amt rl)
    (_hdate : dateDiffOk rl.std_date rb.std_date = true) :
    (∀ df_b mb ib, df_b[ib]? = some rb → mb.contains ib = false →
      ((ib, rb) ∈ unclaimedCands df_b mb (feeAmtOk rl) ↔ feeAmtOk rl rb = true)) ∧
    (feeAmtOk rl rb = true ↔
      (abs_amt rb < abs_amt rl ∧ abs_amt rl * (96/100) < abs_amt rb)) ∧
    (abs_amt rb = abs_amt rl * (96/100) → feeAmtOk rl rb = false) ∧
    (abs_amt rb = abs_amt rl * (9601/10000) → feeAmtOk rl rb = true) := by
  refine ⟨?_, ?_, ?_, ?_⟩
  · intro df_b mb ib hg hmb
    rw [unclaimedCands, List.mem_filter]
    constructor
    · intro hh
      have hq := hh.2
      simp only [Bool.and_eq_true, Bool.not_eq_true'] at hq
      exact hq.2
    · intro hfee
      refine ⟨List.mk_mem_enum_iff_getElem?.mpr hg, ?_⟩
      simp only [Bool.and_eq_true, Bool.not_eq_true']
      exact ⟨hmb, hfee⟩
  · simp [feeAmtOk, Bool.and_eq_true, decide_eq_true_eq, gt_iff_lt, and_comm]
  · intro h96
    simp [feeAmtOk, h96, lt_irrefl]
  · intro h9601
    have h1 : abs_amt rb < abs_amt rl := by
      rw [h9601]
      calc abs_amt rl * (9601/10000) < abs_amt rl * 1 := by
            exact mul_lt_mul_of_pos_left (by norm_num) hpos
        _ = abs_amt rl := mul_one _
    have h2 : abs_amt rl * (96/100) < abs_amt rb := by
      rw [h9601]
      exact mul_lt_mul_of_pos_left (by norm_num) hpos
    simp [feeAmtOk, h1, h2]

/-- Witness for C3: ledger amount 100, bank 96.01 accepted, bank 96
rejected. -/
theorem fee_window_boundaries_witness :
    feeAmtOk ⟨0, "L", 100⟩ ⟨0, "B", 9601/100⟩ = true ∧
    feeAmtOk ⟨0, "L", 100⟩ ⟨0, "B", 96⟩ = false :=
  ⟨(fee_window_boundaries ⟨0, "L", 100⟩ ⟨0, "B", 9601/100⟩
      (by norm_num [abs_amt]) (by decide)).2.2.2
      (by norm_num [abs_amt, abs_of_nonneg]),
    (fee_window_boundaries ⟨0, "L", 100⟩ ⟨0, "B", 96⟩
      (by norm_num [abs_amt]) (by decide)).2.2.1
      (by norm_num [abs_amt, abs_of_nonneg])⟩

/-- C10. A ledger row whose unsigned amount is exactly 0 is never acted
on by the fee pass (its step is the identity), yet in the exact pass it
is a candidate against precisely the bank rows with unsigned amount at
most 0.01 within the 5-day window, and an exact match emits difference 0. -/
theorem zero_amount_ledger_row (r : NormRow) (h : abs_amt r = 0) :
    (∀ df_b st i, feeStep df_b st (i, r) = st) ∧
    (∀ rb : NormRow,
      (exactAmtOk r rb && dateDiffOk r.std_date rb.std_date) = true ↔
      (abs_amt rb ≤ 1/100 ∧ |rb.std_date - r.std_date| ≤ 5)) ∧
    (∀ i ib rb, (mkExact i r ib rb).quality = MatchQuality.exactMatch ∧
      (mkExact i r ib rb).difference = some 0) := by
  refine ⟨?_, ?_, fun i ib rb => ⟨rfl, rfl⟩⟩
  · intro df_b st i
    simp [feeStep, h]
  · intro rb
    have habs : |abs_amt rb| = abs_amt rb := abs_abs rb.std_amt
    simp [exactAmtOk, isclose, dateDiffOk, h, habs, Bool.and_eq_true,
      decide_eq_true_eq]

/-- Witness for C10: a zero-amount ledger row is skipped by the fee step
and exact-matches a 0.01 bank row three days away. -/
theorem zero_amount_ledger_row_witness :
    feeStep [] ⟨[], [], []⟩ (0, ⟨0, "Z", 0⟩) = ⟨[], [], []⟩ ∧
    (exactAmtOk ⟨0, "Z", 0⟩ ⟨3, "B", 1/100⟩ && dateDiffOk 0 3) = true :=
  ⟨(zero_amount_ledger_row ⟨0, "Z", 0⟩ (by norm_num [abs_amt])).1 [] ⟨[], [], []⟩ 0,
    ((zero_amount_ledger_row ⟨0, "Z", 0⟩ (by norm_num [abs_amt])).2.1
      ⟨3, "B", 1/100⟩).mpr ⟨by norm_num [abs_amt, abs_of_nonneg], by decide⟩⟩

/-- C4. In the exact pass, an already-claimed ledger row is skipped
unchanged; an unclaimed one whose candidate search succeeds is bound to
the first bank row in frame order that is unclaimed and passes both the
amount and date tests (every earlier unclaimed bank row fails the
combined test — it is not the closest that wins), appending exactly one
ExactMatch row with difference 0 and claiming both indices. -/
theorem exact_pass_first_fit :
    (∀ (df_b : List NormRow) (st : EngineState) (i : Nat) (r : NormRow),
      st.matched_l.contains i = true → exactStep df_b st (i, r) = st) ∧
    (∀ (df_b : List NormRow) (st : EngineState) (i : Nat) (r : NormRow)
        (ib : Nat) (rb : NormRow),
      st.matched_l.contains i = false →
      findByDate r (unclaimedCands df_b st.matched_b (exactAmtOk r)) =
        some (ib, rb) →
      df_b[ib]? = some rb ∧ st.matched_b.contains ib = false ∧
      exactAmtOk r rb = true ∧ dateDiffOk r.std_date rb.std_date = true ∧
      (∀ k, k < ib → ∀ rk, df_b[k]? = some rk →
        st.matched_b.contains k = false →
        (exactAmtOk r rk && dateDiffOk r.std_date rk.std_date) = false) ∧
      exactStep df_b st (i, r) =
        ⟨st.matchList ++ [mkExact i r ib rb], st.matched_l ++ [i],
          st.matched_b ++ [ib]⟩ ∧
      (mkExact i r ib rb).quality = MatchQuality.exactMatch ∧
      (mkExact i r ib rb).difference = some 0) := by
  constructor
  · intro df_b st i r hm
    have hmem : i ∈ st.matched_l := by simpa using hm
    simp [exactStep, hmem]
  · intro df_b st i r ib rb hm hfind
    obtain ⟨hc, hg, ha, hd, hfirst⟩ :=
      findByDate_spec df_b st.matched_b _ r ib rb hfind
    have hmem : i ∉ st.matched_l := by simpa using hm
    exact ⟨hg, hc, ha, hd, hfirst, by simp [exactStep, hmem, hfind], rfl, rfl⟩

/-- Witness for C4: with two candidate bank rows, the first in frame
order (0.01 away, 5 days off) is bound, not the closer second one. -/
theorem exact_pass_first_fit_witness :
    exactStep [⟨5, "B1", 50001/100⟩, ⟨0, "B2", 500⟩] ⟨[], [], []⟩
      (0, ⟨0, "L", 500⟩) =
      ⟨[mkExact 0 ⟨0, "L", 500⟩ 0 ⟨5, "B1", 50001/100⟩], [0], [0]⟩ :=
  (exact_pass_first_fit.2 [⟨5, "B1", 50001/100⟩, ⟨0, "B2", 500⟩] ⟨[], [], []⟩ 0
    ⟨0, "L", 500⟩ 0 ⟨5, "B1", 50001/100⟩ rfl
    (by norm_num [findByDate, unclaimedCands, exactAmtOk, isclose, dateDiffOk,
      abs_amt, List.enum, List.enumFrom, abs_of_nonneg])).2.2.2.2.2.1

/-- C6. In any successful run, every fee-match row's difference is
`round(bank.unsigned_amount − ledger.unsigned_amount, 2)` and this value
is never positive. -/
theorem fee_difference_rounded_nonpos (df_l df_b : List NormRow)
    (res : List MatchRow)
    (h : execute_reconciliation (.ok df_l) (.ok df_b) = .ok res) :
    ∀ ro ∈ res, ro.quality = MatchQuality.feeMatch →
      ∃ b l, ro.bank_amt = some b ∧ ro.ledger_amt = some l ∧
        ro.difference = some (round2 (|b| - |l|)) ∧ round2 (|b| - |l|) ≤ 0 := by
  have hres : res = reconcileRows df_l df_b := by
    obtain ⟨df_l', df_b', hL, hB, -, -, hres⟩ := (execute_ok_iff _ _ _).mp h
    cases Except.ok.inj hL
    cases Except.ok.inj hB
    exact hres
  subst hres
  obtain ⟨-, -, -, -, hshape⟩ := runMatching_passInv df_l df_b
  intro ro hro hq
  rw [reconcileRows] at hro
  simp only [List.mem_append] at hro
  rcases hro with (hro | hro) | hro
  · rcases hshape ro hro with ⟨hq', -⟩ | ⟨-, hfs⟩
    · rw [hq] at hq'
      exact MatchQuality.noConfusion hq'
    · obtain ⟨b, l, hb, hl, hlt, hdiff, -⟩ := hfs
      exact ⟨b, l, hb, hl, hdiff, round2_nonpos _ (by linarith)⟩
  · obtain ⟨pr, -, rfl⟩ := List.mem_map.mp hro
    exact absurd hq (by simp [mkUnmatchedBank])
  · obtain ⟨pr, -, rfl⟩ := List.mem_map.mp hro
    exact absurd hq (by simp [mkUnmatchedLedger])

/-- Witness for C6 on a concrete fee-match run (1000 vs 970). -/
theorem fee_difference_rounded_nonpos_witness :
    ∃ b l, (mkFee 0 ⟨0, "L", 1000⟩ 0 ⟨0, "B", 970⟩).bank_amt = some b ∧
      (mkFee 0 ⟨0, "L", 1000⟩ 0 ⟨0, "B", 970⟩).ledger_amt = some l ∧
      (mkFee 0 ⟨0, "L", 1000⟩ 0 ⟨0, "B", 970⟩).difference =
        some (round2 (|b| - |l|)) ∧ round2 (|b| - |l|) ≤ 0 :=
  fee_difference_rounded_nonpos [⟨0, "L", 1000⟩] [⟨0, "B", 970⟩]
    [mkFee 0 ⟨0, "L", 1000⟩ 0 ⟨0, "B", 970⟩]
    (by norm_num [execute_reconciliation, reconcileRows, runMatching, exactStep,
      feeStep, findByDate, unclaimedCands, exactAmtOk, feeAmtOk, isclose, dateDiffOk,
      abs_amt, List.enum, List.enumFrom, abs_of_nonneg, abs_of_nonpos])
    (mkFee 0 ⟨0, "L", 1000⟩ 0 ⟨0, "B", 970⟩) (by simp) rfl

/-- C7. A successful run's outcome list splits as pass outcomes, then the
unmatched-bank section, then the unmatched-ledger section: each section
holds only its own quality, each in-range unclaimed bank (resp. ledger)
index is emitted exactly once there, and each section lists its rows in
strictly increasing input order. -/
theorem residuals_ordered_last (df_l df_b : List NormRow) (res : List MatchRow)
    (h : execute_reconciliation (.ok df_l) (.ok df_b) = .ok res) :
    ∃ matched ub ul,
      res = matched ++ ub ++ ul ∧
      (∀ ro ∈ matched, ro.quality = MatchQuality.exactMatch ∨
        ro.quality = MatchQuality.feeMatch) ∧
      (∀ ro ∈ ub, ro.quality = MatchQuality.unmatchedBank) ∧
      (∀ ro ∈ ul, ro.quality = MatchQuality.unmatchedLedger) ∧
      (∀ j, j < df_b.length →
        (runMatching df_l df_b).matched_b.contains j = false →
        (ub.countP fun ro => ro.bank_ref == some j) = 1) ∧
      (∀ i, i < df_l.length →
        (runMatching df_l df_b).matched_l.contains i = false →
        (ul.countP fun ro => ro.ledger_ref == some i) = 1) ∧
      ub.Pairwise (fun r1 r2 => ∀ j1 j2, r1.bank_ref = some j1 →
        r2.bank_ref = some j2 → j1 < j2) ∧
      ul.Pairwise (fun r1 r2 => ∀ i1 i2, r1.ledger_ref = some i1 →
        r2.ledger_ref = some i2 → i1 < i2) := by
  have hres : res = reconcileRows df_l df_b := by
    obtain ⟨df_l', df_b', hL, hB, -, -, hres⟩ := (execute_ok_iff _ _ _).mp h
    cases Except.ok.inj hL
    cases Except.ok.inj hB
    exact hres
  subst hres
  obtain ⟨-, -, -, -, hshape⟩ := runMatching_passInv df_l df_b
  refine ⟨(runMatching df_l df_b).matchList,
    (df_b.enum.filter fun p =>
      !((runMatching df_l df_b).matched_b.contains p.1)).map
      (fun p => mkUnmatchedBank p.1 p.2),
    (df_l.enum.filter fun p =>
      !((runMatching df_l df_b).matched_l.contains p.1)).map
      (fun p => mkUnmatchedLedger p.1 p.2),
    by simp only [reconcileRows], ?_, ?_, ?_, ?_, ?_, ?_, ?_⟩
  · intro ro hro
    rcases hshape ro hro with ⟨hq, -⟩ | ⟨hq, -⟩
    exacts [Or.inl hq, Or.inr hq]
  · intro ro hro
    obtain ⟨pr, -, rfl⟩ := List.mem_map.mp hro
    rfl
  · intro ro hro
    obtain ⟨pr, -, rfl⟩ := List.mem_map.mp hro
    rfl
  · intro j hj hc
    rw [countP_bank_in_ub, if_pos ⟨hj, hc⟩]
  · intro i hi hc
    rw [countP_ledger_in_ul, if_pos ⟨hi, hc⟩]
  · refine List.Pairwise.map _ ?_
      ((enumFrom_pairwise_fst_lt df_b 0).filter _)
    intro p q hpq j1 j2 h1 h2
    rw [show (mkUnmatchedBank p.1 p.2).bank_ref = some p.1 from rfl] at h1
    rw [show (mkUnmatchedBank q.1 q.2).bank_ref = some q.1 from rfl] at h2
    rw [← Option.some.inj h1, ← Option.some.inj h2]
    exact hpq
  · refine List.Pairwise.map _ ?_
      ((enumFrom_pairwise_fst_lt df_l 0).filter _)
    intro p q hpq i1 i2 h1 h2
    rw [show (mkUnmatchedLedger p.1 p.2).ledger_ref = some p.1 from rfl] at h1
    rw [show (mkUnmatchedLedger q.1 q.2).ledger_ref = some q.1 from rfl] at h2
    rw [← Option.some.inj h1, ← Option.some.inj h2]
    exact hpq

/-- Witness for C7 on a run with one unmatched row on each side. -/
theorem residuals_ordered_last_witness :
    ∃ matched ub ul,
      ([mkUnmatchedBank 0 ⟨20, "B", 100⟩, mkUnmatchedLedger 0 ⟨0, "L", 100⟩] :
        List MatchRow) = matched ++ ub ++ ul ∧
      (∀ ro ∈ matched, ro.quality = MatchQuality.exactMatch ∨
        ro.quality = MatchQuality.feeMatch) ∧
      (∀ ro ∈ ub, ro.quality = MatchQuality.unmatchedBank) ∧
      (∀ ro ∈ ul, ro.quality = MatchQuality.unmatchedLedger) ∧
      (∀ j, j < ([⟨20, "B", 100⟩] : List NormRow).length →
        (runMatching [⟨0, "L", 100⟩] [⟨20, "B", 100⟩]).matched_b.contains j =
          false →
        (ub.countP fun ro => ro.bank_ref == some j) = 1) ∧
      (∀ i, i < ([⟨0, "L", 100⟩] : List NormRow).length →
        (runMatching [⟨0, "L", 100⟩] [⟨20, "B", 100⟩]).matched_l.contains i =
          false →
        (ul.countP fun ro => ro.ledger_ref == some i) = 1) ∧
      ub.Pairwise (fun r1 r2 => ∀ j1 j2, r1.bank_ref = some j1 →
        r2.bank_ref = some j2 → j1 < j2) ∧
      ul.Pairwise (fun r1 r2 => ∀ i1 i2, r1.ledger_ref = some i1 →
        r2.ledger_ref = some i2 → i1 < i2) :=
  residuals_ordered_last [⟨0, "L", 100⟩] [⟨20, "B", 100⟩]
    [mkUnmatchedBank 0 ⟨20, "B", 100⟩, mkUnmatchedLedger 0 ⟨0, "L", 100⟩]
    (by norm_num [execute_reconciliation, reconcileRows, runMatching, exactStep,
      feeStep, findByDate, unclaimedCands, exactAmtOk, feeAmtOk, isclose, dateDiffOk,
      abs_amt, List.enum, List.enumFrom])

/-- C9 (amended). Every fee-match row of a successful run references both
its bank and ledger records and exposes each side's description and
amount, but — unlike ExactMatch rows — exposes no date for either side. -/
theorem fee_rows_fields (df_l df_b : List NormRow) (res : List MatchRow)
    (h : execute_reconciliation (.ok df_l) (.ok df_b) = .ok res) :
    ∀ ro ∈ res, ro.quality = MatchQuality.feeMatch →
      (∃ s, ro.bank_desc = some s) ∧ (∃ s, ro.ledger_desc = some s) ∧
      (∃ b, ro.bank_amt = some b) ∧ (∃ l, ro.ledger_amt = some l) ∧
      (∃ jb, ro.bank_ref = some jb) ∧ (∃ il, ro.ledger_ref = some il) ∧
      ro.bank_date = none ∧ ro.ledger_date = none := by
  have hres : res = reconcileRows df_l df_b := by
    obtain ⟨df_l', df_b', hL, hB, -, -, hres⟩ := (execute_ok_iff _ _ _).mp h
    cases Except.ok.inj hL
    cases Except.ok.inj hB
    exact hres
  subst hres
  obtain ⟨-, -, -, -, hshape⟩ := runMatching_passInv df_l df_b
  intro ro hro hq
  rw [reconcileRows] at hro
  simp only [List.mem_append] at hro
  rcases hro with (hro | hro) | hro
  · rcases hshape ro hro with ⟨hq', -⟩ | ⟨-, hfs⟩
    · rw [hq] at hq'
      exact MatchQuality.noConfusion hq'
    · obtain ⟨b, l, hb, hl, -, -, hbd, hld, hbs, hls, hbr, hlr⟩ := hfs
      exact ⟨hbs, hls, ⟨b, hb⟩, ⟨l, hl⟩, hbr, hlr, hbd, hld⟩
  · obtain ⟨pr, -, rfl⟩ := List.mem_map.mp hro
    exact absurd hq (by simp [mkUnmatchedBank])
  · obtain ⟨pr, -, rfl⟩ := List.mem_map.mp hro
    exact absurd hq (by simp [mkUnmatchedLedger])

/-- Counterexample to C9 as stated: this run yields exactly one
fee-match row and that row carries no date field for either side (the
fee-match dict in the code omits `Bank_Date` / `Ledger_Date`), while an
exact-match row does expose the bank date. -/
theorem fee_rows_missing_dates_cex :
    execute_reconciliation (.ok [⟨0, "L", 1000⟩]) (.ok [⟨0, "B", 970⟩]) =
      .ok [mkFee 0 ⟨0, "L", 1000⟩ 0 ⟨0, "B", 970⟩] ∧
    (mkFee 0 ⟨0, "L", 1000⟩ 0 ⟨0, "B", 970⟩).quality = MatchQuality.feeMatch ∧
    (mkFee 0 ⟨0, "L", 1000⟩ 0 ⟨0, "B", 970⟩).bank_date = none ∧
    (mkFee 0 ⟨0, "L", 1000⟩ 0 ⟨0, "B", 970⟩).ledger_date = none ∧
    (mkExact 0 ⟨0, "L", 1000⟩ 0 ⟨0, "B", 970⟩).bank_date ≠ none := by
  refine ⟨?_, rfl, rfl, rfl, by simp [mkExact]⟩
  norm_num [execute_reconciliation, reconcileRows, runMatching, exactStep,
    feeStep, findByDate, unclaimedCands, exactAmtOk, feeAmtOk, isclose, dateDiffOk,
    abs_amt, List.enum, List.enumFrom, abs_of_nonneg, abs_of_nonpos]

/-- Witness for C9 (amended) on a concrete fee-match run. -/
theorem fee_rows_fields_witness :
    (∃ s, (mkFee 0 ⟨0, "L", 1000⟩ 0 ⟨0, "B", 970⟩).bank_desc = some s) ∧
    (∃ s, (mkFee 0 ⟨0, "L", 1000⟩ 0 ⟨0, "B", 970⟩).ledger_desc = some s) ∧
    (∃ b, (mkFee 0 ⟨0, "L", 1000⟩ 0 ⟨0, "B", 970⟩).bank_amt = some b) ∧
    (∃ l, (mkFee 0 ⟨0, "L", 1000⟩ 0 ⟨0, "B", 970⟩).ledger_amt = some l) ∧
    (∃ jb, (mkFee 0 ⟨0, "L", 1000⟩ 0 ⟨0, "B", 970⟩).bank_ref = some jb) ∧
    (∃ il, (mkFee 0 ⟨0, "L", 1000⟩ 0 ⟨0, "B", 970⟩).ledger_ref = some il) ∧
    (mkFee 0 ⟨0, "L", 1000⟩ 0 ⟨0, "B", 970⟩).bank_date = none ∧
    (mkFee 0 ⟨0, "L", 1000⟩ 0 ⟨0, "B", 970⟩).ledger_date = none :=
  fee_rows_fields [⟨0, "L", 1000⟩] [⟨0, "B", 970⟩]
    [mkFee 0 ⟨0, "L", 1000⟩ 0 ⟨0, "B", 970⟩]
    (by norm_num [execute_reconciliation, reconcileRows, runMatching, exactStep,
      feeStep, findByDate, unclaimedCands, exactAmtOk, feeAmtOk, isclose, dateDiffOk,
      abs_amt, List.enum, List.enumFrom, abs_of_nonneg, abs_of_nonpos])
    (mkFee 0 ⟨0, "L", 1000⟩ 0 ⟨0, "B", 970⟩) (by simp) rfl

/-- Witness for C1 on a concrete exact-match run. -/
theorem reconcile_partitions_inputs_witness :
    (([mkExact 0 ⟨0, "L", 500⟩ 0 ⟨2, "B", -500⟩] : List MatchRow).countP
      fun ro => ro.ledger_ref == some 0) = 1 ∧
    (([mkExact 0 ⟨0, "L", 500⟩ 0 ⟨2, "B", -500⟩] : List MatchRow).countP
      fun ro => ro.bank_ref == some 0) = 1 :=
  ⟨(reconcile_partitions_inputs [⟨0, "L", 500⟩] [⟨2, "B", -500⟩]
      [mkExact 0 ⟨0, "L", 500⟩ 0 ⟨2, "B", -500⟩]
      (by norm_num [execute_reconciliation, reconcileRows, runMatching, exactStep,
        feeStep, findByDate, unclaimedCands, exactAmtOk, feeAmtOk, isclose,
        dateDiffOk, abs_amt, List.enum, List.enumFrom])).1 0 (by norm_num),
    (reconcile_partitions_inputs [⟨0, "L", 500⟩] [⟨2, "B", -500⟩]
      [mkExact 0 ⟨0, "L", 500⟩ 0 ⟨2, "B", -500⟩]
      (by norm_num [execute_reconciliation, reconcileRows, runMatching, exactStep,
        feeStep, findByDate, unclaimedCands, exactAmtOk, feeAmtOk, isclose,
        dateDiffOk, abs_amt, List.enum, List.enumFrom])).2 0 (by norm_num)⟩
